import Mathlib

/-!
Verification of the Water Sort solver in `WaterSort/code/ai_solution.py`
(`class GameSolution`).

Shallow embedding conventions:
* A color is a `Nat`, a tube is a `List Nat` whose LAST element is the top
  (Python `tube[-1]`), a configuration is a `List (List Nat)`.
* `cap` stands for `self.game.NColorInTube`, the uniform per-tube capacity.
* Python's partial operations are embedded with `Option`: `make_move`
  returns `none` exactly when the Python code would raise `IndexError`
  (index out of range, or `pop` on an empty source tube).
* The unbounded recursion of `solve`'s inner `dfs` and the unbounded
  `while` loop of `optimal_solve`'s inner `a_star_search` are embedded with
  an explicit fuel parameter; `none` means the computation did not finish
  normally within the given fuel.  All theorems about these functions
  either hold for every fuel or supply a concrete sufficient fuel.
* The recursive `dfs` is defunctionalized into `dfsGo`, a step function on
  an explicit stack of frames: `Frame.enter c path` is a Python call
  `dfs(c, path)` about to execute its body, and `Frame.loop c path ms` is
  the `for move in ...` loop of that call with remaining moves `ms`.  The
  frame stack is exactly the Python call stack, so the exploration order,
  the visited-set updates and the recorded solution path coincide with the
  source, step for step.
-/

/-- Modelled from the spec: `GameSolution.is_victory` delegates to
`self.game.check_victory`, and the class `Game` is not part of the sources
under verification.  Per the spec (§4.1), victory holds iff every tube is
either empty or filled to exactly `capacity` with a single repeated color. -/
def is_victory (cap : Nat) (tube_colors : List (List Nat)) : Bool :=
  tube_colors.all (fun t => t.isEmpty || (t.length == cap && t.all (fun c => c == t.headD 0)))

/-- Embedding of `GameSolution.get_possible_moves`: the nested
`for i ... for j ...` loops over `range(len(tube_colors))`, the outer guard
`if tube_colors[i]:` and the inner legality test
`i != j and (not tube_colors[j] or (len(tube_colors[j]) < NColorInTube and
tube_colors[j][-1] == tube_colors[i][-1]))`. -/
def get_possible_moves (cap : Nat) (tube_colors : List (List Nat)) : List (Nat × Nat) :=
  (List.range tube_colors.length).flatMap (fun i =>
    if tube_colors.getD i [] = [] then []
    else (List.range tube_colors.length).flatMap (fun j =>
      if i ≠ j ∧ (tube_colors.getD j [] = [] ∨
          ((tube_colors.getD j []).length < cap ∧
            (tube_colors.getD j []).getLast? = (tube_colors.getD i []).getLast?))
      then [(i, j)] else []))

/-- Embedding of `GameSolution.make_move`: copy the configuration, pop the
top color of the source tube, append it to the destination tube.  `none`
models the `IndexError` the Python code raises when an index is out of
range or the source tube is empty. -/
def make_move (tube_colors : List (List Nat)) (move : Nat × Nat) : Option (List (List Nat)) :=
  let src := move.1
  let dst := move.2
  if src < tube_colors.length ∧ dst < tube_colors.length then
    match (tube_colors.getD src []).getLast? with
    | none => none
    | some color =>
      let afterPop := tube_colors.set src (tube_colors.getD src []).dropLast
      some (afterPop.set dst (afterPop.getD dst [] ++ [color]))
  else none

/-- Embedding of `GameSolution.heuristic`: one pass over the tubes keeping
the two counters `misplaced_tubes` (`tube and len(set(tube)) > 1`) and
`incomplete_tubes` (`tube and 0 < len(set(tube)) < NColorInTube`); the
result is their sum.  `len(set(tube))` is the number of distinct colors,
i.e. `tube.dedup.length`. -/
def heuristic (cap : Nat) (tube_colors : List (List Nat)) : Nat :=
  let counters := tube_colors.foldl (fun (acc : Nat × Nat) tube =>
    (if tube ≠ [] ∧ 1 < tube.dedup.length then acc.1 + 1 else acc.1,
     if tube ≠ [] ∧ (0 < tube.dedup.length ∧ tube.dedup.length < cap) then acc.2 + 1 else acc.2))
    (0, 0)
  counters.1 + counters.2

/-- The mutable attributes of a `GameSolution` object set in `__init__`:
`solution_found`, `moves`, and `visited_states` (a Python `set` with
structural equality, embedded as a list queried by membership). -/
structure GameSolution where
  solution_found : Bool
  moves : List (Nat × Nat)
  visited_states : List (List (List Nat))
deriving DecidableEq, Repr

/-- The object state right after `GameSolution.__init__`. -/
def initGS : GameSolution :=
  { solution_found := false, moves := [], visited_states := [] }

/-- One suspended piece of the Python call stack of `solve`'s inner `dfs`:
`enter c path` is a call `dfs(c, path)` about to run its body, and
`loop c path ms` is that call's `for move in ...` loop with the moves `ms`
still to try. -/
inductive Frame where
  | enter (c : List (List Nat)) (path : List (Nat × Nat))
  | loop (c : List (List Nat)) (path : List (Nat × Nat)) (ms : List (Nat × Nat))
deriving DecidableEq, Repr

/-- Step-for-step embedding of `solve`'s inner recursive `dfs` as a loop
over the explicit call stack (see the file header).  Returns
`some (found, gs)` for a normal return of the outermost call, `none` when
the fuel runs out or `make_move` raises. -/
def dfsGo (cap : Nat) : Nat → GameSolution → List Frame → Option (Bool × GameSolution)
  | 0, _, _ => none
  | _ + 1, gs, [] => some (false, gs)
  | fuel + 1, gs, Frame.enter c path :: k =>
    if is_victory cap c then
      some (true, { gs with solution_found := true, moves := path })
    else
      dfsGo cap fuel gs (Frame.loop c path (get_possible_moves cap c) :: k)
  | fuel + 1, gs, Frame.loop _ _ [] :: k => dfsGo cap fuel gs k
  | fuel + 1, gs, Frame.loop c path (m :: rest) :: k =>
    match make_move c m with
    | none => none
    | some next =>
      if next ∈ gs.visited_states then
        dfsGo cap fuel gs (Frame.loop c path rest :: k)
      else
        dfsGo cap fuel { gs with visited_states := next :: gs.visited_states }
          (Frame.enter next (path ++ [m]) :: Frame.loop c path rest :: k)

/-- Embedding of `GameSolution.solve`: add the initial state to the
object's `visited_states` (a set, so adding an already-present state is a
no-op), then run the recursive `dfs` from the initial state with the empty
path. -/
def solve (cap fuel : Nat) (gs : GameSolution) (tube_colors : List (List Nat)) :
    Option GameSolution :=
  let gs1 :=
    if tube_colors ∈ gs.visited_states then gs
    else { gs with visited_states := tube_colors :: gs.visited_states }
  match dfsGo cap fuel gs1 [Frame.enter tube_colors []] with
  | none => none
  | some (_, gs2) => some gs2

/-- Replay a list of moves from a configuration by repeated `make_move`. -/
def replay (c : List (List Nat)) : List (Nat × Nat) → Option (List (List Nat))
  | [] => some c
  | m :: rest =>
    match make_move c m with
    | none => none
    | some c2 => replay c2 rest

/-- Number of units of color `c` in a configuration. -/
def color_count (c : Nat) (tube_colors : List (List Nat)) : Nat :=
  (tube_colors.map (fun t => t.count c)).sum

/-- Total number of units in a configuration. -/
def total_units (tube_colors : List (List Nat)) : Nat :=
  (tube_colors.map List.length).sum

/-!
Embedding of the priority frontier of `optimal_solve`: Python's `heapq`
module (`heappush`/`heappop` over a list that is a binary min-heap) on the
entries `(f, colors, path)` the search pushes.  Python orders such tuples
lexicographically with `<`: first the integer `f`, then the list of tubes
(lists compare lexicographically, element by element), then the path (a
list of integer pairs).  `entryLt` is that order.
-/

/-- A frontier entry `(f, colors_list, path)` as pushed by
`a_star_search`. -/
abbrev HeapEntry : Type := Nat × List (List Nat) × List (Nat × Nat)

/-- Python `<` on tubes (lists of ints): lexicographic. -/
def natListLt : List Nat → List Nat → Bool
  | _, [] => false
  | [], _ :: _ => true
  | a :: as, b :: bs => decide (a < b) || (a == b && natListLt as bs)

/-- Python `<` on configurations (lists of lists of ints): lexicographic. -/
def tubeListLt : List (List Nat) → List (List Nat) → Bool
  | _, [] => false
  | [], _ :: _ => true
  | a :: as, b :: bs => natListLt a b || (a == b && tubeListLt as bs)

/-- Python `<` on moves (pairs of ints): lexicographic. -/
def movePairLt (a b : Nat × Nat) : Bool :=
  decide (a.1 < b.1) || (a.1 == b.1 && decide (a.2 < b.2))

/-- Python `<` on paths (lists of moves): lexicographic. -/
def pathLt : List (Nat × Nat) → List (Nat × Nat) → Bool
  | _, [] => false
  | [], _ :: _ => true
  | a :: as, b :: bs => movePairLt a b || (a == b && pathLt as bs)

/-- Python `<` on the heap entries `(f, colors, path)`. -/
def entryLt (a b : HeapEntry) : Bool :=
  decide (a.1 < b.1) ||
    (a.1 == b.1 && (tubeListLt a.2.1 b.2.1 || (a.2.1 == b.2.1 && pathLt a.2.2 b.2.2)))

/-- Placeholder for out-of-range heap reads; every read in the embedded
heap routines is in range when the fuel supplied by `heappush`/`heappop`
is used, exactly as in CPython's `heapq`. -/
def dummyEntry : HeapEntry := (0, [], [])

/-- CPython `heapq._siftdown(heap, startpos, pos)`: move parents down
while `newitem` is smaller, then write `newitem` at the final position.
The loop runs at most `pos` times; `fuel` bounds it. -/
def siftdownAux (newitem : HeapEntry) (startpos : Nat) :
    Nat → List HeapEntry → Nat → List HeapEntry
  | 0, heap, pos => heap.set pos newitem
  | fuel + 1, heap, pos =>
    if startpos < pos then
      let parentpos := (pos - 1) / 2
      let parent := heap.getD parentpos dummyEntry
      if entryLt newitem parent then
        siftdownAux newitem startpos fuel (heap.set pos parent) parentpos
      else heap.set pos newitem
    else heap.set pos newitem

/-- The child-promoting loop of CPython `heapq._siftup`: starting from
`pos`, repeatedly move the smaller child up until reaching a leaf;
returns the updated list and the final position. -/
def siftupLoop (endpos : Nat) : Nat → List HeapEntry → Nat → List HeapEntry × Nat
  | 0, heap, pos => (heap, pos)
  | fuel + 1, heap, pos =>
    let childpos := 2 * pos + 1
    if childpos < endpos then
      let cp :=
        if childpos + 1 < endpos &&
            !(entryLt (heap.getD childpos dummyEntry) (heap.getD (childpos + 1) dummyEntry))
        then childpos + 1 else childpos
      siftupLoop endpos fuel (heap.set pos (heap.getD cp dummyEntry)) cp
    else (heap, pos)

/-- CPython `heapq.heappush`: append the item and sift it down towards the
root. -/
def heappush (heap : List HeapEntry) (item : HeapEntry) : List HeapEntry :=
  let h := heap ++ [item]
  siftdownAux item 0 h.length h (h.length - 1)

/-- CPython `heapq.heappop`: pop the last element; if the heap is still
non-empty, save the root as the return value, move the last element to the
root and run `_siftup` (the child-promoting loop followed by `_siftdown`
with the saved `newitem`).  `none` models the `IndexError` on an empty
heap, which `optimal_solve` never triggers because its loop condition is
`while priority_queue:`. -/
def heappop (heap : List HeapEntry) : Option (HeapEntry × List HeapEntry) :=
  match heap.getLast? with
  | none => none
  | some lastelt =>
    let rest := heap.dropLast
    if rest = [] then some (lastelt, [])
    else
      let returnitem := rest.getD 0 dummyEntry
      let h0 := rest.set 0 lastelt
      let sifted := siftupLoop h0.length h0.length h0 0
      some (returnitem, siftdownAux lastelt 0 sifted.1.length sifted.1 sifted.2)

/-- Lookup in the embedded `g` cost dict of `a_star_search` (keys are
configurations, structurally compared; `none` models a `KeyError`). -/
def lookupCost : List (List (List Nat) × Nat) → List (List Nat) → Option Nat
  | [], _ => none
  | (k, v) :: rest, key => if k = key then some v else lookupCost rest key

/-- The inner `for move in self.get_possible_moves(current_colors):` loop
of `a_star_search`: for each legal move compute the successor; if it is
unvisited, mark it visited, record `g(next) = g(current) + 1`, and push
`(g(next) + heuristic(next), next, path + [move])` onto the frontier.
The `h` and `f` dicts of the source are written but never read afterwards
(the pushed `f[colors_tuple]` value is used immediately), so only `g` is
carried.  `none` models an uncaught `IndexError`/`KeyError`. -/
def expandMoves (cap : Nat) (current : List (List Nat)) (path : List (Nat × Nat)) :
    List (Nat × Nat) → List HeapEntry → List (List (List Nat) × Nat) →
    List (List (List Nat)) →
    Option (List HeapEntry × List (List (List Nat) × Nat) × List (List (List Nat)))
  | [], pq, g, visited => some (pq, g, visited)
  | m :: rest, pq, g, visited =>
    match make_move current m with
    | none => none
    | some next =>
      if next ∈ visited then expandMoves cap current path rest pq g visited
      else
        match lookupCost g current with
        | none => none
        | some gcur =>
          expandMoves cap current path rest
            (heappush pq (gcur + 1 + heuristic cap next, next, path ++ [m]))
            ((next, gcur + 1) :: g) (next :: visited)

/-- The `while priority_queue:` loop of `a_star_search`, one fuel unit per
iteration: pop the lowest entry, stop successfully on victory, otherwise
expand its legal moves and continue.  `some (false, gs)` is the loop
running the frontier empty (the search returns `False`). -/
def aStarLoop (cap : Nat) :
    Nat → List HeapEntry → List (List (List Nat) × Nat) → List (List (List Nat)) →
    GameSolution → Option (Bool × GameSolution)
  | 0, _, _, _, _ => none
  | fuel + 1, pq, g, visited, gs =>
    match heappop pq with
    | none => some (false, gs)
    | some (entry, pq1) =>
      if is_victory cap entry.2.1 then
        some (true, { gs with solution_found := true, moves := entry.2.2 })
      else
        match expandMoves cap entry.2.1 entry.2.2 (get_possible_moves cap entry.2.1)
            pq1 g visited with
        | none => none
        | some (pq2, g2, visited2) => aStarLoop cap fuel pq2 g2 visited2 gs

/-- Embedding of `GameSolution.optimal_solve` / its inner `a_star_search`:
initialize `g`, the frontier (a single entry `(0 + heuristic(start),
start, [])`) and the run-local `visited` set with the initial state, then
run the loop. -/
def optimal_solve (cap fuel : Nat) (gs : GameSolution) (tube_colors : List (List Nat)) :
    Option GameSolution :=
  match aStarLoop cap fuel [(0 + heuristic cap tube_colors, tube_colors, [])]
      [(tube_colors, 0)] [tube_colors] gs with
  | none => none
  | some (_, gs2) => some gs2

lemma mem_get_possible_moves (cap : Nat) (tubes : List (List Nat)) (i j : Nat) :
    (i, j) ∈ get_possible_moves cap tubes ↔
      i < tubes.length ∧ j < tubes.length ∧ i ≠ j ∧ tubes.getD i [] ≠ [] ∧
        (tubes.getD j [] = [] ∨
          ((tubes.getD j []).length < cap ∧
            (tubes.getD j []).getLast? = (tubes.getD i []).getLast?)) := by
  unfold get_possible_moves
  constructor
  · intro h
    obtain ⟨a, ha, h2⟩ := List.mem_flatMap.mp h
    by_cases he : tubes.getD a [] = []
    · rw [if_pos he] at h2; simp at h2
    · rw [if_neg he] at h2
      obtain ⟨b, hb, h3⟩ := List.mem_flatMap.mp h2
      split at h3
      · next hcond =>
          simp only [List.mem_singleton, Prod.mk.injEq] at h3
          obtain ⟨rfl, rfl⟩ := h3
          exact ⟨List.mem_range.mp ha, List.mem_range.mp hb, hcond.1, he, hcond.2⟩
      · simp at h3
  · rintro ⟨hi, hj, hij, hne, hcond⟩
    refine List.mem_flatMap.mpr ⟨i, List.mem_range.mpr hi, ?_⟩
    rw [if_neg hne]
    refine List.mem_flatMap.mpr ⟨j, List.mem_range.mpr hj, ?_⟩
    rw [if_pos ⟨hij, hcond⟩]
    simp

lemma flatMap_mono_sublist {α β : Type} (l : List α) (f g : α → List β)
    (h : ∀ x ∈ l, List.Sublist (f x) (g x)) : List.Sublist (l.flatMap f) (l.flatMap g) := by
  induction l with
  | nil => simp
  | cons a l ih =>
    simp only [List.flatMap_cons]
    exact (h a (List.mem_cons_self a l)).append
      (ih (fun x hx => h x (List.mem_cons_of_mem a hx)))

lemma flatMap_singleton_map {α β : Type} (l : List α) (f : α → β) :
    (l.flatMap fun x => [f x]) = l.map f := by
  induction l <;> simp_all

lemma pairwise_grid (outer inner : List Nat) (h1 : outer.Pairwise (· < ·))
    (h2 : inner.Pairwise (· < ·)) :
    (outer.flatMap (fun i => inner.map (fun j => (i, j)))).Pairwise
      (fun a b : Nat × Nat => a.1 < b.1 ∨ (a.1 = b.1 ∧ a.2 < b.2)) := by
  induction outer with
  | nil => simp
  | cons a l ih =>
    simp only [List.flatMap_cons]
    rw [List.pairwise_append]
    obtain ⟨hrel, htail⟩ := List.pairwise_cons.mp h1
    refine ⟨?_, ih htail, ?_⟩
    · rw [List.pairwise_map]
      exact h2.imp (fun hlt => Or.inr ⟨rfl, hlt⟩)
    · intro p hp q hq
      obtain ⟨jp, _, rfl⟩ := List.mem_map.mp hp
      obtain ⟨x, hx, hq2⟩ := List.mem_flatMap.mp hq
      obtain ⟨jq, _, rfl⟩ := List.mem_map.mp hq2
      exact Or.inl (hrel x hx)

lemma gpm_sublist_grid (cap : Nat) (tubes : List (List Nat)) :
    List.Sublist (get_possible_moves cap tubes)
      ((List.range tubes.length).flatMap
        (fun i => (List.range tubes.length).map (fun j => (i, j)))) := by
  unfold get_possible_moves
  apply flatMap_mono_sublist
  intro i _
  by_cases he : tubes.getD i [] = []
  · rw [if_pos he]; exact List.nil_sublist _
  · rw [if_neg he, ← flatMap_singleton_map (List.range tubes.length) (fun j => (i, j))]
    apply flatMap_mono_sublist
    intro j _
    split
    · exact List.Sublist.refl _
    · exact List.nil_sublist _

/-- C2: `get_possible_moves` returns exactly the pairs `(i, j)` with
`i ≠ j`, tube `i` non-empty, and tube `j` empty or below capacity with
matching top color, listed in ascending source order and, within a
source, ascending destination order (strict lexicographic pairwise
order, which together with the membership characterization pins the
list down uniquely). -/
theorem get_possible_moves_characterization (cap : Nat) (tubes : List (List Nat)) :
    (∀ i j : Nat, (i, j) ∈ get_possible_moves cap tubes ↔
      i < tubes.length ∧ j < tubes.length ∧ i ≠ j ∧ tubes.getD i [] ≠ [] ∧
        (tubes.getD j [] = [] ∨
          ((tubes.getD j []).length < cap ∧
            (tubes.getD j []).getLast? = (tubes.getD i []).getLast?))) ∧
    (get_possible_moves cap tubes).Pairwise
      (fun a b : Nat × Nat => a.1 < b.1 ∨ (a.1 = b.1 ∧ a.2 < b.2)) :=
  ⟨fun i j => mem_get_possible_moves cap tubes i j,
   List.Pairwise.sublist (gpm_sublist_grid cap tubes)
     (pairwise_grid (List.range tubes.length) (List.range tubes.length)
       (List.pairwise_lt_range tubes.length) (List.pairwise_lt_range tubes.length))⟩

lemma getD_set_same (l : List (List Nat)) (i : Nat) (x : List Nat) (h : i < l.length) :
    (l.set i x).getD i [] = x := by
  simp [List.getD_eq_getElem?_getD, List.getElem?_set_self', List.getElem?_eq_getElem h]

lemma getD_set_other (l : List (List Nat)) (i j : Nat) (x : List Nat) (h : i ≠ j) :
    (l.set i x).getD j [] = l.getD j [] := by
  simp [List.getD_eq_getElem?_getD, List.getElem?_set_ne h]

lemma make_move_eq (tubes : List (List Nat)) (i j : Nat) (s' : List Nat) (color : Nat)
    (hi : i < tubes.length) (hj : j < tubes.length) (hij : i ≠ j)
    (hs : tubes.getD i [] = s' ++ [color]) :
    make_move tubes (i, j) =
      some ((tubes.set i s').set j (tubes.getD j [] ++ [color])) := by
  simp only [make_move]
  rw [if_pos ⟨hi, hj⟩, hs]
  simp only [List.getLast?_concat, List.dropLast_concat]
  rw [List.getD_eq_getElem?_getD, List.getD_eq_getElem?_getD, List.getElem?_set_ne hij]

lemma exists_concat_of_getD_ne_nil (tubes : List (List Nat)) (i : Nat)
    (h : tubes.getD i [] ≠ []) :
    ∃ s' color, tubes.getD i [] = s' ++ [color] := by
  rcases List.eq_nil_or_concat (tubes.getD i []) with h0 | ⟨s', color, h0⟩
  · exact absurd h0 h
  · exact ⟨s', color, by simpa using h0⟩

/-- C4: for in-range tube indices `src ≠ dst` with tube `src` non-empty,
`make_move` returns a new configuration equal to the input except that
the last (top) unit of tube `src` is removed and appended to tube `dst`;
every other tube is unchanged.  The input configuration itself is a pure
value here, matching the source's copy-then-mutate discipline
(`[tube[:] for tube in tube_colors]`), which never mutates its input. -/
theorem make_move_postcondition (tubes : List (List Nat)) (src dst : Nat)
    (hs : src < tubes.length) (hd : dst < tubes.length) (hne : src ≠ dst)
    (hsrc : tubes.getD src [] ≠ []) :
    ∃ color t', (tubes.getD src []).getLast? = some color ∧
      make_move tubes (src, dst) = some t' ∧
      t'.length = tubes.length ∧
      t'.getD src [] = (tubes.getD src []).dropLast ∧
      t'.getD dst [] = tubes.getD dst [] ++ [color] ∧
      ∀ k, k ≠ src → k ≠ dst → t'.getD k [] = tubes.getD k [] := by
  obtain ⟨s', color, hcat⟩ := exists_concat_of_getD_ne_nil tubes src hsrc
  refine ⟨color, (tubes.set src s').set dst (tubes.getD dst [] ++ [color]),
    by rw [hcat]; exact List.getLast?_concat s',
    make_move_eq tubes src dst s' color hs hd hne hcat, by simp, ?_, ?_, ?_⟩
  · rw [getD_set_other _ _ _ _ (Ne.symm hne), getD_set_same _ _ _ hs, hcat,
      List.dropLast_concat]
  · rw [getD_set_same _ _ _ (by simpa using hd)]
  · intro k hks hkd
    rw [getD_set_other _ _ _ _ (fun h => hkd h.symm),
      getD_set_other _ _ _ _ (fun h => hks h.symm)]

lemma sum_map_set (f : List Nat → Nat) (l : List (List Nat)) (i : Nat) (x : List Nat)
    (h : i < l.length) :
    ((l.set i x).map f).sum + f (l.getD i []) = (l.map f).sum + f x := by
  induction l generalizing i with
  | nil => simp at h
  | cons a l ih =>
    cases i with
    | zero => simp [List.getD]; omega
    | succ n =>
      have hn : n < l.length := by simpa using h
      have := ih n hn
      simp only [List.set_cons_succ, List.map_cons, List.sum_cons, List.getD_cons_succ]
      omega

/-- C3: applying any move produced by `get_possible_moves` conserves the
per-color unit counts and the total unit count of the configuration. -/
theorem make_move_conserves_units (cap : Nat) (tubes : List (List Nat)) (m : Nat × Nat)
    (hm : m ∈ get_possible_moves cap tubes) :
    ∃ t', make_move tubes m = some t' ∧
      (∀ c, color_count c t' = color_count c tubes) ∧
      total_units t' = total_units tubes := by
  obtain ⟨i, j⟩ := m
  obtain ⟨hi, hj, hij, hsrc, -⟩ := (mem_get_possible_moves cap tubes i j).mp hm
  obtain ⟨s', color, hcat⟩ := exists_concat_of_getD_ne_nil tubes i hsrc
  refine ⟨(tubes.set i s').set j (tubes.getD j [] ++ [color]),
    make_move_eq tubes i j s' color hi hj hij hcat, ?_, ?_⟩
  · intro c
    have h1 := sum_map_set (fun t => t.count c) tubes i s' hi
    have h2 := sum_map_set (fun t => t.count c) (tubes.set i s') j
      (tubes.getD j [] ++ [color]) (by simpa using hj)
    rw [getD_set_other _ _ _ _ hij] at h2
    have h3 : (tubes.getD i []).count c = s'.count c + List.count c [color] := by
      rw [hcat, List.count_append]
    have h4 : (tubes.getD j [] ++ [color]).count c
        = (tubes.getD j []).count c + List.count c [color] := List.count_append c _ _
    simp only [color_count]
    simp only at h1 h2
    omega
  · have h1 := sum_map_set List.length tubes i s' hi
    have h2 := sum_map_set List.length (tubes.set i s') j
      (tubes.getD j [] ++ [color]) (by simpa using hj)
    rw [getD_set_other _ _ _ _ hij] at h2
    have h3 : (tubes.getD i []).length = s'.length + 1 := by rw [hcat]; simp
    have h4 : (tubes.getD j [] ++ [color]).length = (tubes.getD j []).length + 1 := by simp
    simp only [total_units]
    omega

lemma mem_of_mem_set (l : List (List Nat)) (i : Nat) (x t : List Nat)
    (h : t ∈ l.set i x) : t = x ∨ t ∈ l := by
  rcases List.mem_or_eq_of_mem_set h with h | h
  · exact Or.inr h
  · exact Or.inl h

/-- C10: starting from a configuration whose tubes all respect the
capacity, every move produced by `get_possible_moves` is well-defined
(the source pop never hits an empty list, so `make_move` returns
`some`), and all tubes of the result still respect the capacity. -/
theorem legal_move_capacity_safe (cap : Nat) (tubes : List (List Nat)) (m : Nat × Nat)
    (hcap : ∀ t ∈ tubes, t.length ≤ cap) (hm : m ∈ get_possible_moves cap tubes) :
    ∃ t', make_move tubes m = some t' ∧ ∀ t ∈ t', t.length ≤ cap := by
  obtain ⟨i, j⟩ := m
  obtain ⟨hi, hj, hij, hsrc, hdst⟩ := (mem_get_possible_moves cap tubes i j).mp hm
  obtain ⟨s', color, hcat⟩ := exists_concat_of_getD_ne_nil tubes i hsrc
  refine ⟨(tubes.set i s').set j (tubes.getD j [] ++ [color]),
    make_move_eq tubes i j s' color hi hj hij hcat, ?_⟩
  have hsrcmem : tubes.getD i [] ∈ tubes := by
    rw [List.getD_eq_getElem?_getD, List.getElem?_eq_getElem hi]
    exact List.getElem_mem hi
  have hcappos : 1 ≤ cap := by
    have := hcap _ hsrcmem
    rw [hcat] at this
    simp at this
    omega
  have hdstmem : tubes.getD j [] ∈ tubes := by
    rw [List.getD_eq_getElem?_getD, List.getElem?_eq_getElem hj]
    exact List.getElem_mem hj
  intro t ht
  rcases mem_of_mem_set _ _ _ _ ht with rfl | ht2
  · rcases hdst with hre | ⟨hlt, -⟩
    · rw [hre]; simpa using hcappos
    · simp only [List.length_append, List.length_cons, List.length_nil]
      omega
  · rcases mem_of_mem_set _ _ _ _ ht2 with rfl | ht3
    · have := hcap _ hsrcmem
      rw [hcat] at this
      simp at this ⊢
      omega
    · exact hcap t ht3

lemma heuristic_foldl_general (cap : Nat) (l : List (List Nat)) (a b : Nat) :
    (l.foldl (fun (acc : Nat × Nat) tube =>
      (if tube ≠ [] ∧ 1 < tube.dedup.length then acc.1 + 1 else acc.1,
       if tube ≠ [] ∧ (0 < tube.dedup.length ∧ tube.dedup.length < cap) then acc.2 + 1
       else acc.2)) (a, b))
    = (a + l.countP (fun t => decide (t ≠ [] ∧ 1 < t.dedup.length)),
       b + l.countP (fun t => decide (t ≠ [] ∧ (0 < t.dedup.length ∧ t.dedup.length < cap)))) := by
  induction l generalizing a b with
  | nil => simp
  | cons t l ih =>
    simp only [List.foldl_cons, List.countP_cons]
    rw [ih]
    by_cases ht : t = [] <;> by_cases hd1 : 1 < t.dedup.length <;>
      by_cases hd2 : 0 < t.dedup.length <;> by_cases hd3 : t.dedup.length < cap <;>
      simp [ht, hd1, hd2, hd3] <;> omega

lemma countP_incomplete_drop_pos (cap : Nat) (tubes : List (List Nat)) :
    tubes.countP (fun t => decide (t ≠ [] ∧ (0 < t.dedup.length ∧ t.dedup.length < cap))) =
    tubes.countP (fun t => decide (t ≠ [] ∧ t.dedup.length < cap)) := by
  apply List.countP_congr
  intro t _
  simp only [decide_eq_true_eq]
  constructor
  · rintro ⟨h, -, h3⟩
    exact ⟨h, h3⟩
  · rintro ⟨h, h3⟩
    refine ⟨h, ?_, h3⟩
    have hne : t.dedup ≠ [] := fun hnil => h ((List.dedup_eq_nil t).mp hnil)
    exact List.length_pos.mpr hne

/-- C5: `heuristic` returns exactly (number of non-empty tubes with at
least 2 distinct colors) + (number of non-empty tubes with fewer than
`capacity` distinct colors), the two counts taken independently and
summed without deduplication. -/
theorem heuristic_formula (cap : Nat) (tubes : List (List Nat)) :
    heuristic cap tubes =
      tubes.countP (fun t => decide (t ≠ [] ∧ 2 ≤ t.dedup.length)) +
      tubes.countP (fun t => decide (t ≠ [] ∧ t.dedup.length < cap)) := by
  unfold heuristic
  rw [heuristic_foldl_general, countP_incomplete_drop_pos]
  simp only [Nat.zero_add]
  rfl

/-- Invariant tying a suspended frame to the initial configuration `C`:
the frame's recorded path replays from `C` to the frame's configuration. -/
def FrameOK (C : List (List Nat)) : Frame → Prop
  | Frame.enter c path => replay C path = some c
  | Frame.loop c path _ => replay C path = some c

lemma replay_snoc (C : List (List Nat)) (p : List (Nat × Nat)) (m : Nat × Nat) :
    replay C (p ++ [m]) = (replay C p).bind (fun c => make_move c m) := by
  induction p generalizing C with
  | nil => cases h : make_move C m <;> simp [replay, h]
  | cons x xs ih =>
    simp only [List.cons_append, replay]
    cases make_move C x with
    | none => simp
    | some c2 => simp [ih]

lemma dfsGo_found_sound (cap : Nat) (C : List (List Nat)) :
    ∀ fuel gs stack gs', (∀ fr ∈ stack, FrameOK C fr) →
      dfsGo cap fuel gs stack = some (true, gs') →
      gs'.solution_found = true ∧
        ∃ final, replay C gs'.moves = some final ∧ is_victory cap final = true := by
  intro fuel
  induction fuel with
  | zero => intro gs stack gs' _ h; simp [dfsGo] at h
  | succ fuel ih =>
    rintro gs (_ | ⟨(⟨c, path⟩ | ⟨c, path, _ | ⟨m, ms⟩⟩), k⟩) gs' hok h
    · simp [dfsGo] at h
    · by_cases hv : is_victory cap c
      · simp only [dfsGo, hv, if_true, Option.some.injEq, Prod.mk.injEq,
          eq_self_iff_true, true_and] at h
        rw [← h]
        exact ⟨rfl, c, hok _ (List.mem_cons_self _ _), hv⟩
      · simp only [dfsGo, hv, if_false] at h
        refine ih gs _ gs' ?_ h
        intro fr hfr
        rcases List.mem_cons.mp hfr with rfl | hfr2
        · exact hok (Frame.enter c path) (List.mem_cons_self _ _)
        · exact hok fr (List.mem_cons_of_mem _ hfr2)
    · simp only [dfsGo] at h
      exact ih gs k gs' (fun fr hfr => hok fr (List.mem_cons_of_mem _ hfr)) h
    · cases hmk : make_move c m with
      | none => simp [dfsGo, hmk] at h
      | some next =>
        by_cases hvis : next ∈ gs.visited_states
        · simp only [dfsGo, hmk, hvis, if_true] at h
          refine ih gs _ gs' ?_ h
          intro fr hfr
          rcases List.mem_cons.mp hfr with rfl | hfr2
          · exact hok (Frame.loop c path (m :: ms)) (List.mem_cons_self _ _)
          · exact hok fr (List.mem_cons_of_mem _ hfr2)
        · simp only [dfsGo, hmk, hvis, if_false] at h
          refine ih _ _ gs' ?_ h
          intro fr hfr
          rcases List.mem_cons.mp hfr with rfl | hfr2
          · show replay C (path ++ [m]) = some next
            rw [replay_snoc,
              show replay C path = some c from hok _ (List.mem_cons_self _ _)]
            simpa using hmk
          · rcases List.mem_cons.mp hfr2 with rfl | hfr3
            · exact hok (Frame.loop c path (m :: ms)) (List.mem_cons_self _ _)
            · exact hok fr (List.mem_cons_of_mem _ hfr3)

lemma dfsGo_false_flags (cap : Nat) :
    ∀ fuel gs stack gs', dfsGo cap fuel gs stack = some (false, gs') →
      gs'.solution_found = gs.solution_found ∧ gs'.moves = gs.moves := by
  intro fuel
  induction fuel with
  | zero => intro gs stack gs' h; simp [dfsGo] at h
  | succ fuel ih =>
    rintro gs (_ | ⟨(⟨c, path⟩ | ⟨c, path, _ | ⟨m, ms⟩⟩), k⟩) gs' h
    · simp only [dfsGo, Option.some.injEq, Prod.mk.injEq, eq_self_iff_true,
        true_and] at h
      rw [← h]
      exact ⟨rfl, rfl⟩
    · by_cases hv : is_victory cap c
      · simp [dfsGo, hv] at h
      · simp only [dfsGo, hv, if_false] at h
        exact ih gs _ gs' h
    · simp only [dfsGo] at h
      exact ih gs k gs' h
    · cases hmk : make_move c m with
      | none => simp [dfsGo, hmk] at h
      | some next =>
        by_cases hvis : next ∈ gs.visited_states
        · simp only [dfsGo, hmk, hvis, if_true] at h
          exact ih gs _ gs' h
        · simp only [dfsGo, hmk, hvis, if_false] at h
          simpa using ih _ _ gs' h

lemma dfsGo_state_mono (cap : Nat) :
    ∀ fuel gs stack r gs', dfsGo cap fuel gs stack = some (r, gs') →
      (gs.solution_found = true → gs'.solution_found = true) ∧
        (∀ s ∈ gs.visited_states, s ∈ gs'.visited_states) := by
  intro fuel
  induction fuel with
  | zero => intro gs stack r gs' h; simp [dfsGo] at h
  | succ fuel ih =>
    rintro gs (_ | ⟨(⟨c, path⟩ | ⟨c, path, _ | ⟨m, ms⟩⟩), k⟩) r gs' h
    · simp only [dfsGo, Option.some.injEq, Prod.mk.injEq] at h
      rw [← h.2]
      exact ⟨fun hf => hf, fun s hs => hs⟩
    · by_cases hv : is_victory cap c
      · simp only [dfsGo, hv, if_true, Option.some.injEq, Prod.mk.injEq] at h
        rw [← h.2]
        exact ⟨fun _ => rfl, fun s hs => hs⟩
      · simp only [dfsGo, hv, if_false] at h
        exact ih gs _ r gs' h
    · simp only [dfsGo] at h
      exact ih gs k r gs' h
    · cases hmk : make_move c m with
      | none => simp [dfsGo, hmk] at h
      | some next =>
        by_cases hvis : next ∈ gs.visited_states
        · simp only [dfsGo, hmk, hvis, if_true] at h
          exact ih gs _ r gs' h
        · simp only [dfsGo, hmk, hvis, if_false] at h
          obtain ⟨h1, h2⟩ := ih _ _ r gs' h
          refine ⟨fun hf => h1 hf, fun s hs => h2 s ?_⟩
          exact List.mem_cons_of_mem _ hs

/-- C1: if `solve` on a fresh `GameSolution` reports a solution, replaying
the recorded move list from the initial configuration by repeated
`make_move` reaches a configuration satisfying `is_victory`. -/
theorem solve_sound (cap fuel : Nat) (tubes : List (List Nat)) (gs' : GameSolution)
    (h : solve cap fuel initGS tubes = some gs') (hf : gs'.solution_found = true) :
    ∃ final, replay tubes gs'.moves = some final ∧ is_victory cap final = true := by
  simp only [solve, initGS, List.not_mem_nil, if_false] at h
  cases hgo : dfsGo cap fuel
      { solution_found := false, moves := [], visited_states := [tubes] }
      [Frame.enter tubes []] with
  | none => rw [hgo] at h; exact absurd h (by simp)
  | some p =>
    obtain ⟨r, gs2⟩ := p
    rw [hgo] at h
    simp only [Option.some.injEq] at h
    subst h
    cases r with
    | true =>
      obtain ⟨-, final, hrep, hvic⟩ := dfsGo_found_sound cap tubes fuel _ _ _
        (by
          intro fr hfr
          rcases List.mem_cons.mp hfr with rfl | h0
          · exact rfl
          · simp at h0) hgo
      exact ⟨final, hrep, hvic⟩
    | false =>
      obtain ⟨hflag, -⟩ := dfsGo_false_flags cap fuel _ _ _ hgo
      rw [hflag] at hf
      simp at hf

/-- C7 amended: the object state persists across `solve` calls — `solve`
never clears `visited_states` or resets `solution_found`, it only grows
the former and can only raise the latter. -/
theorem solve_state_persists (cap fuel : Nat) (gs gs' : GameSolution)
    (tubes : List (List Nat)) (h : solve cap fuel gs tubes = some gs') :
    (gs.solution_found = true → gs'.solution_found = true) ∧
      ∀ s ∈ gs.visited_states, s ∈ gs'.visited_states := by
  simp only [solve] at h
  by_cases hmem : tubes ∈ gs.visited_states
  · rw [if_pos hmem] at h
    cases hgo : dfsGo cap fuel gs [Frame.enter tubes []] with
    | none => rw [hgo] at h; exact absurd h (by simp)
    | some p =>
      obtain ⟨r, gs2⟩ := p
      rw [hgo] at h
      simp only [Option.some.injEq] at h
      subst h
      exact dfsGo_state_mono cap fuel gs _ r gs2 hgo
  · rw [if_neg hmem] at h
    cases hgo : dfsGo cap fuel { gs with visited_states := tubes :: gs.visited_states }
        [Frame.enter tubes []] with
    | none => rw [hgo] at h; exact absurd h (by simp)
    | some p =>
      obtain ⟨r, gs2⟩ := p
      rw [hgo] at h
      simp only [Option.some.injEq] at h
      subst h
      obtain ⟨h1, h2⟩ := dfsGo_state_mono cap fuel _ _ r gs2 hgo
      exact ⟨fun hf => h1 hf, fun s hs => h2 s (List.mem_cons_of_mem _ hs)⟩

/-- C9: on any non-victorious configuration with no legal moves, both
`solve` and `optimal_solve` finish normally (no exception, enough fuel
given), leave `solution_found` false, and report not-found through the
returned object. -/
theorem nomoves_notfound (cap f1 f2 : Nat) (tubes : List (List Nat))
    (hvic : is_victory cap tubes = false) (hmv : get_possible_moves cap tubes = []) :
    (solve cap (f1 + 3) initGS tubes).map (fun s => s.solution_found) = some false ∧
    (optimal_solve cap (f2 + 2) initGS tubes).map (fun s => s.solution_found) = some false := by
  constructor
  · simp only [solve, initGS, List.not_mem_nil, if_false]
    rw [show f1 + 3 = f1 + 2 + 1 from rfl]
    simp only [dfsGo, hvic, Bool.false_eq_true, if_false, hmv]
    rfl
  · simp only [optimal_solve]
    rw [show f2 + 2 = f2 + 1 + 1 from rfl]
    simp only [aStarLoop, heappop, List.getLast?_singleton, List.dropLast_single,
      if_pos, hvic, Bool.false_eq_true, if_false, hmv, expandMoves]
    simp only [dfsGo, aStarLoop, heappop, List.getLast?_nil]
    rfl

/-- C6 amended: among frontier entries with equal `f`, `heapq` pops first
the entry whose remaining tuple components — the configuration, compared
lexicographically as Python compares lists, then the path — are smaller;
insertion order plays no role (here the smaller entry is pushed second and
still pops first). -/
theorem frontier_tiebreak_lexicographic (fv : Nat) (c1 c2 : List (List Nat))
    (p1 p2 : List (Nat × Nat)) (h : tubeListLt c2 c1 = true) :
    heappop (heappush (heappush [] (fv, c1, p1)) (fv, c2, p2)) =
      some ((fv, c2, p2), [(fv, c1, p1)]) := by
  simp [heappush, heappop, siftdownAux, siftupLoop, entryLt, h, Nat.lt_irrefl]

/-- C6 counterexample: two frontier entries with equal `f = 2`; the one
inserted second is popped first, refuting the insertion-order tie-break. -/
theorem frontier_tiebreak_counterexample :
    heappop (heappush (heappush [] (2, [[1, 1], []], [])) (2, [[0], [1]], [(0, 1)])) =
      some ((2, [[0], [1]], [(0, 1)]), [(2, [[1, 1], []], [])]) := by
  rfl

/-- Witness for the amended C6 theorem at a concrete input. -/
theorem frontier_tiebreak_lexicographic_witness :
    heappop (heappush (heappush [] (3, [[5]], [])) (3, [[4]], [(1, 0)])) =
      some ((3, [[4]], [(1, 0)]), [(3, [[5]], [])]) :=
  frontier_tiebreak_lexicographic 3 [[5]] [[4]] [] [(1, 0)] (by decide)

/-- C7 counterexample: a `solve` call on `[[1]]` (unsolvable) through an
object that earlier solved `[[0, 0], []]` still reports
`solution_found = true`, while the same call on a fresh object reports
`false` — the determination depends on earlier calls. -/
theorem solve_crosscall_counterexample :
    ((solve 2 5 initGS [[0, 0], []]).bind (fun s1 => solve 2 5 s1 [[1]])).map
        (fun s => s.solution_found) = some true ∧
    (solve 2 5 initGS [[1]]).map (fun s => s.solution_found) = some false := by
  decide

/-- Witness for the amended C7 theorem at a concrete input. -/
theorem solve_state_persists_witness :
    ((GameSolution.mk true [(0, 1)] [[[5]]]).solution_found = true →
      (GameSolution.mk true [(0, 1)] [[[7]], [[5]]]).solution_found = true) ∧
      ∀ s ∈ (GameSolution.mk true [(0, 1)] [[[5]]]).visited_states,
        s ∈ (GameSolution.mk true [(0, 1)] [[[7]], [[5]]]).visited_states :=
  solve_state_persists 2 5 (GameSolution.mk true [(0, 1)] [[[5]]])
    (GameSolution.mk true [(0, 1)] [[[7]], [[5]]]) [[7]] (by decide)

/-- C8: on the already-victorious configuration `[[A, A], []]` with
capacity 2, both searches report a solution with an empty move list. -/
theorem already_won_empty_path :
    (solve 2 5 initGS [[0, 0], []]).map (fun s => (s.solution_found, s.moves)) =
        some (true, []) ∧
    (optimal_solve 2 5 initGS [[0, 0], []]).map (fun s => (s.solution_found, s.moves)) =
        some (true, []) := by
  decide

/-- Witness for C1 at a concrete input. -/
theorem solve_sound_witness :
    ∃ final, replay [[0, 0], []] (GameSolution.mk true [] [[[0, 0], []]]).moves =
        some final ∧ is_victory 2 final = true :=
  solve_sound 2 5 [[0, 0], []] (GameSolution.mk true [] [[[0, 0], []]])
    (by decide) (by decide)

/-- Witness for C3 at a concrete input. -/
theorem make_move_conserves_units_witness :
    ∃ t', make_move [[0], []] (0, 1) = some t' ∧
      (∀ c, color_count c t' = color_count c [[0], []]) ∧
      total_units t' = total_units [[0], []] :=
  make_move_conserves_units 2 [[0], []] (0, 1) (by decide)

/-- Witness for C4 at a concrete input. -/
theorem make_move_postcondition_witness :
    ∃ color t', (([[0, 1], [2]] : List (List Nat)).getD 0 []).getLast? = some color ∧
      make_move [[0, 1], [2]] (0, 1) = some t' ∧
      t'.length = ([[0, 1], [2]] : List (List Nat)).length ∧
      t'.getD 0 [] = (([[0, 1], [2]] : List (List Nat)).getD 0 []).dropLast ∧
      t'.getD 1 [] = ([[0, 1], [2]] : List (List Nat)).getD 1 [] ++ [color] ∧
      ∀ k, k ≠ 0 → k ≠ 1 → t'.getD k [] = ([[0, 1], [2]] : List (List Nat)).getD k [] :=
  make_move_postcondition [[0, 1], [2]] 0 1 (by decide) (by decide) (by decide) (by decide)

/-- Witness for C9 at a concrete input. -/
theorem nomoves_notfound_witness :
    (solve 2 (0 + 3) initGS [[0]]).map (fun s => s.solution_found) = some false ∧
    (optimal_solve 2 (0 + 2) initGS [[0]]).map (fun s => s.solution_found) = some false :=
  nomoves_notfound 2 0 0 [[0]] (by decide) (by decide)

/-- Witness for C10 at a concrete input. -/
theorem legal_move_capacity_safe_witness :
    ∃ t', make_move [[1], []] (0, 1) = some t' ∧ ∀ t ∈ t', t.length ≤ 2 :=
  legal_move_capacity_safe 2 [[1], []] (0, 1) (by decide) (by decide)

